import Mathlib

/-!
Verification of the minimal JAX core ("autodidax2, part 1"):
context-sensitive interpretation of a closed set of primitive operations,
forward-mode automatic differentiation with dual numbers tagged by the
interpreter that owns them, and staging to a straight-line IR (`Jaxpr`).

The Python source is embedded shallowly:
* Python floats are modelled as integers (`Int`): the program only ever adds
  and multiplies, every numeral appearing in the claims (0.0, 1.0, 2.0, 3.0)
  is integral, and sums and products of integral IEEE doubles of this size
  are exact, so exact integer arithmetic agrees with the source's float
  arithmetic on everything the claims touch.
* the process-global mutable variable `current_interpreter`, the interpreter
  object-identity tags and the mutable equation lists of staging interpreters
  are threaded through an explicit state monad `M`; exceptions are modelled
  by `Except` results that keep the state (Python exceptions do not roll back
  global state).
* Python object identity of interpreters is modelled by a unique `Nat` tag
  allocated from a counter in the state at construction time.
-/

namespace Autodidax

/-- The full (closed) set of primitive operations (`class Op(Enum)`). -/
inductive Op where
  | add : Op
  | mul : Op
deriving DecidableEq

/-- Runtime values: Python floats (`num`), IR variables — plain strings in the
source (`var`) — and `TaggedDualNumber`s carrying the identity of the
`JVPInterpreter` that owns them (`dual`). -/
inductive Value where
  | num : Int → Value
  | var : String → Value
  | dual : Nat → Value → Value → Value
deriving DecidableEq

/-- Interpreters: `EvalInterpreter`, `JVPInterpreter` (identity tag and the
interpreter that was current at its construction, `prev_interpreter`) and
`StagingInterpreter` (identity tag keying its mutable state). -/
inductive Interp where
  | eval : Interp
  | jvp : Nat → Interp → Interp
  | staging : Nat → Interp
deriving DecidableEq

/-- A single line in the IR, `z = mul(x, y)` (`class Equation`). -/
structure Equation where
  var : String
  op : Op
  args : List Value
deriving DecidableEq

/-- An IR function (`class Jaxpr`). -/
structure Jaxpr where
  parameters : List String
  equations : List Equation
  return_val : Value
deriving DecidableEq

/-- The mutable fields of a `StagingInterpreter`: its accumulated equations
and its fresh-name counter. -/
structure StagingSt where
  equations : List Equation
  name_counter : Nat
deriving DecidableEq

/-- The process state: the global `current_interpreter`, the counter
allocating interpreter identity tags, and the mutable state of every staging
interpreter, keyed by identity tag (most recent binding first). -/
structure St where
  cur : Interp
  next_id : Nat
  staging : List (Nat × StagingSt)
deriving DecidableEq

/-- Python exceptions that the embedded code can raise, named after the
spec's error taxonomy: `typeMismatch` is the failed
`assert all(isinstance(arg, float) ...)` in the evaluating interpreter,
`valueError` a failed tuple destructuring / unrecognized op,
`typeError` is `str.join` applied to a non-string (the `Jaxpr.__str__` bug),
`unboundVariable` is the `KeyError` of the IR evaluator's environment
lookup, and `arityMismatch` belongs to the flattener model. -/
inductive Err where
  | typeMismatch : Err
  | valueError : Err
  | typeError : Err
  | unboundVariable : Err
  | arityMismatch : Err
  | structureMismatch : Err
deriving DecidableEq

/-- Computations over the global state; an exception (`Except.error`) keeps
the state reached so far, as in Python. -/
abbrev M (α : Type) : Type := St → Except Err α × St

instance : Monad M where
  pure a := fun s => (.ok a, s)
  bind m f := fun s =>
    match m s with
    | (.ok a, s1) => f a s1
    | (.error e, s1) => (.error e, s1)

/-- Raise an exception. -/
def throwM {α} (e : Err) : M α := fun s => (.error e, s)

/-- Read the global `current_interpreter`. -/
def getCur : M Interp := fun s => (.ok s.cur, s)

/-- The `set_interpreter` context manager: set `current_interpreter`,
run the body, and restore the previous interpreter on every exit path
(the `try`/`finally`), whether the body returns normally or raises. -/
def set_interpreter {α} (I : Interp) (m : M α) : M α := fun s =>
  let prev := s.cur
  let r := m { s with cur := I }
  (r.1, { r.2 with cur := prev })

/-- Look up a staging interpreter's mutable state (fresh interpreters are
registered with empty state). -/
def stagingGet (s : St) (i : Nat) : StagingSt :=
  (s.staging.lookup i).getD ⟨[], 0⟩

/-- Overwrite a staging interpreter's mutable state. -/
def stagingSet (s : St) (i : Nat) (st : StagingSt) : St :=
  { s with staging := (i, st) :: s.staging }

/-- `isinstance(arg, float)`. -/
def Value.isNum : Value → Bool
  | .num _ => true
  | _ => false

/-- The `.primal` attribute of a `TaggedDualNumber`; every place the source
reads it the value is the result of `lift`, hence a dual number, so the
catch-all branch is never reached. -/
def Value.primal : Value → Value
  | .dual _ p _ => p
  | v => v

/-- The `.tangent` attribute of a `TaggedDualNumber`; as for `primal`, the
catch-all branch is never reached. -/
def Value.tangent : Value → Value
  | .dual _ _ t => t
  | _ => .num 0

/-- `JVPInterpreter.lift`: a dual number owned by this interpreter (object
identity, modelled by the tag `i`) is returned unchanged; any other value —
including a dual number owned by a different interpreter — is wrapped as a
constant with tangent `0.0`. -/
def JVPInterpreter.lift (i : Nat) (x : Value) : Value :=
  match x with
  | .dual j p t => if j = i then .dual j p t else .dual i (.dual j p t) (.num 0)
  | v => .dual i v (.num 0)

/-- `StagingInterpreter.fresh_var`: `"v_" + str(name_counter)` after
incrementing the counter. -/
def vname (n : Nat) : String := "v_" ++ toString n

/-- `interpret_op` of each interpreter class.  The evaluating interpreter
asserts that all arguments are floats and computes concretely.  The JVP
interpreter lifts its arguments and runs the dual-number rules with
`current_interpreter` temporarily set to its `prev_interpreter`; the inner
`add`/`mul` calls dispatch to that interpreter, written here as direct calls
to `interpretOp prev` (inside the `set_interpreter prev` block the current
interpreter is `prev` at each of those call sites).  The staging interpreter
allocates a fresh binder and appends one equation. -/
def interpretOp : Interp → Op → List Value → M Value
  | .eval, op, args => fun s =>
      if args.all Value.isNum then
        match op, args with
        | .add, [.num x, .num y] => (.ok (.num (x + y)), s)
        | .mul, [.num x, .num y] => (.ok (.num (x * y)), s)
        | _, _ => (.error .valueError, s)
      else
        (.error .typeMismatch, s)
  | .jvp i prev, op, args =>
      let args := args.map (JVPInterpreter.lift i)
      set_interpreter prev
        (match op, args with
         | .add, [x, y] => do
             let p ← interpretOp prev .add [x.primal, y.primal]
             let t ← interpretOp prev .add [x.tangent, y.tangent]
             pure (.dual i p t)
         | .mul, [x, y] => do
             let x := JVPInterpreter.lift i x
             let y := JVPInterpreter.lift i y
             let p ← interpretOp prev .mul [x.primal, y.primal]
             let a ← interpretOp prev .mul [x.primal, y.tangent]
             let b ← interpretOp prev .mul [x.tangent, y.primal]
             let t ← interpretOp prev .add [a, b]
             pure (.dual i p t)
         | _, _ => throwM .valueError)
  | .staging i, op, args => fun s =>
      let st := stagingGet s i
      let n := st.name_counter + 1
      let binder := vname n
      (.ok (.var binder), stagingSet s i ⟨st.equations ++ [⟨binder, op, args⟩], n⟩)

/-- The user-facing primitive entry points dispatch to the current
interpreter. -/
def dispatch (op : Op) (args : List Value) : M Value := fun s =>
  interpretOp s.cur op args s

/-- `def add(x, y): return current_interpreter.interpret_op(Op.add, (x, y))`. -/
def add (x y : Value) : M Value := dispatch .add [x, y]

/-- `def mul(x, y): return current_interpreter.interpret_op(Op.mul, (x, y))`. -/
def mul (x y : Value) : M Value := dispatch .mul [x, y]

/-- `def foo(x): return mul(x, add(x, 3.0))`. -/
def foo (x : Value) : M Value := do
  let a ← add x (.num 3)
  mul x a

/-- Allocation of a fresh interpreter identity tag (Python object creation). -/
def freshInterpId : M Nat := fun s => (.ok s.next_id, { s with next_id := s.next_id + 1 })

/-- `jvp(f, primal, tangent)`: construct a `JVPInterpreter` remembering the
current interpreter, run `f` on a dual number owned by it, lift the result
and return the `(primal, tangent)` pair. -/
def jvp (f : Value → M Value) (primal tangent : Value) : M (Value × Value) := do
  let prev ← getCur
  let i ← freshInterpId
  let dual_number_in := Value.dual i primal tangent
  let result ← set_interpreter (.jvp i prev) (f dual_number_in)
  let dual_number_out := JVPInterpreter.lift i result
  pure (dual_number_out.primal, dual_number_out.tangent)

/-- `def derivative(f, x): _, tangent = jvp(f, x, 1.0); return tangent`. -/
def derivative (f : Value → M Value) (x : Value) : M Value := do
  let r ← jvp f x (.num 1)
  pure r.2

/-- `nth_order_derivative(n, f, x)`. -/
def nth_order_derivative (n : Nat) (f : Value → M Value) (x : Value) : M Value :=
  match n with
  | 0 => f x
  | n + 1 => derivative (fun y => nth_order_derivative n f y) x

/-- The perturbation-confusion test function from the source:
`def f(x): g = lambda y: x; should_be_zero = derivative(g, 0.0);
return mul(x, should_be_zero)`. -/
def confusionF (x : Value) : M Value := do
  let should_be_zero ← derivative (fun _ => pure x) (.num 0)
  mul x should_be_zero

/-- `StagingInterpreter.fresh_var` as a state action on the interpreter
with tag `i`. -/
def fresh_var (i : Nat) : M String := fun s =>
  let st := stagingGet s i
  let n := st.name_counter + 1
  (.ok (vname n), stagingSet s i { st with name_counter := n })

/-- `StagingInterpreter()`: fresh identity tag, empty equations, counter 0. -/
def newStagingInterpreter : M Nat := fun s =>
  (.ok s.next_id,
   { s with next_id := s.next_id + 1, staging := (s.next_id, ⟨[], 0⟩) :: s.staging })

/-- `tuple(interpreter.fresh_var() for _ in range(num_args))`, left to
right. -/
def mkParameters (i : Nat) : Nat → M (List String)
  | 0 => pure []
  | n + 1 => do
      let v ← fresh_var i
      let vs ← mkParameters i n
      pure (v :: vs)

/-- Read back the accumulated equations of staging interpreter `i`. -/
def getEquations (i : Nat) : M (List Equation) := fun s =>
  (.ok (stagingGet s i).equations, s)

/-- `build_jaxpr(f, num_args)`. -/
def build_jaxpr (f : List Value → M Value) (num_args : Nat) : M Jaxpr := do
  let i ← newStagingInterpreter
  let parameters ← mkParameters i num_args
  let result ← set_interpreter (.staging i) (f (parameters.map Value.var))
  let eqs ← getEquations i
  pure ⟨parameters, eqs, result⟩

/-- `foo` as a function of an argument list, as passed to `build_jaxpr`
(`f(*parameters)` with `foo` of arity one). -/
def fooArgs (vs : List Value) : M Value :=
  match vs with
  | [x] => foo x
  | _ => throwM .valueError

/-- `eval_atom` inside `eval_jaxpr`: `env[x] if isinstance(x, Var) else x`;
a missing binding is the environment's `KeyError`, the spec's
`UnboundVariable`. -/
def eval_atom (env : List (String × Value)) : Value → Except Err Value
  | .var v =>
      match env.lookup v with
      | some x => .ok x
      | none => .error .unboundVariable
  | x => .ok x

/-- Embed a pure fallible computation into `M`. -/
def liftExc {α} (r : Except Err α) : M α := fun s => (r, s)

/-- The equation loop of `eval_jaxpr`: resolve the atoms, dispatch the
operation to the *current* interpreter, bind the result. -/
def evalEquations (eqs : List Equation) (env : List (String × Value)) :
    M (List (String × Value)) :=
  match eqs with
  | [] => pure env
  | eqn :: rest => do
      let args ← liftExc (eqn.args.mapM (eval_atom env))
      let v ← dispatch eqn.op args
      evalEquations rest ((eqn.var, v) :: env)

/-- `eval_jaxpr(jaxpr, args)` (`dict(zip(...))` truncates like `List.zip`). -/
def eval_jaxpr (jaxpr : Jaxpr) (args : List Value) : M Value := do
  let env ← evalEquations jaxpr.equations (jaxpr.parameters.zip args)
  liftExc (eval_atom env jaxpr.return_val)

/-- `str(op)` for the `Op` enum: Python prints enum members as
`Op.add` / `Op.mul`. -/
def opStr : Op → String
  | .add => "Op.add"
  | .mul => "Op.mul"

/-- `str(arg)` applied to an atom when formatting an equation line; `str` is
total in Python (dual numbers would print their dataclass repr, which the
claims never exercise). -/
def atomStr : Value → String
  | .var v => v
  | .num x => toString x
  | .dual i p t => "TaggedDualNumber(" ++ toString i ++ ", " ++ atomStr p ++ ", " ++ atomStr t ++ ")"

/-- A Python value that is appended to the `lines` list of `Jaxpr.__str__`:
every explicitly formatted line is a `str` (modelled by `Value.var`), but the
return atom is appended unconverted, so it may be a float. -/
def asPyStr : Value → Except Err String
  | .var v => .ok v
  | _ => .error .typeError

/-- Convert every joined item to a string, left to right, failing at the
first non-string. -/
def asPyStrList : List Value → Except Err (List String)
  | [] => .ok []
  | v :: vs => do
      let s ← asPyStr v
      let ss ← asPyStrList vs
      pure (s :: ss)

/-- `sep.join(items)`: raises `TypeError` when any item is not a string. -/
def pyStrJoin (sep : String) (items : List Value) : Except Err String := do
  let ss ← asPyStrList items
  pure (String.intercalate sep ss)

/-- `Jaxpr.__str__`: the header line, one line per equation, and then the
return atom appended to the line list *unconverted* before joining. -/
def Jaxpr.toStr (j : Jaxpr) : Except Err String :=
  let header := String.intercalate ", " j.parameters ++ " ->"
  let eqLines := j.equations.map (fun eqn =>
    "  " ++ eqn.var ++ " = " ++ opStr eqn.op ++ "("
      ++ String.intercalate ", " (eqn.args.map atomStr) ++ ")")
  let lines : List Value := (header :: eqLines).map Value.var ++ [j.return_val]
  pyStrJoin "\n" lines

instance {ε α : Type} [DecidableEq ε] [DecidableEq α] : DecidableEq (Except ε α)
  | .ok a, .ok b =>
      if h : a = b then .isTrue (by rw [h]) else .isFalse (fun hh => h (Except.ok.inj hh))
  | .ok _, .error _ => .isFalse (fun h => Except.noConfusion h)
  | .error _, .ok _ => .isFalse (fun h => Except.noConfusion h)
  | .error e, .error f =>
      if h : e = f then .isTrue (by rw [h]) else .isFalse (fun hh => h (Except.error.inj hh))

/-- The program's initial state: `current_interpreter = EvalInterpreter()`. -/
def St.init : St := ⟨.eval, 0, []⟩

/-- Run a computation from the initial state and keep the result. -/
def runM {α} (m : M α) : Except Err α := (m St.init).1

/-! ### A stateless mirror of the interpreter tower (proof device)

`interpretOp` threads the whole process state even though the evaluating and
JVP interpreters neither read nor write anything but the scoped
`current_interpreter`.  For proving facts about deeply nested
differentiation it is convenient to have a stateless mirror of
`interpretOp`, restricted to towers of JVP interpreters over the evaluating
interpreter; `interpretOp_pureOp` below proves the two agree, and the
claims themselves are always stated against `interpretOp`/`runM`. -/

/-- Interpreter towers: JVP interpreters stacked over the evaluating
interpreter (no staging interpreter, whose rule mutates state). -/
def Interp.isTower : Interp → Bool
  | .eval => true
  | .jvp _ prev => prev.isTower
  | .staging _ => false

/-- Stateless mirror of `interpretOp` on interpreter towers. -/
def pureOp : Interp → Op → List Value → Except Err Value
  | .eval, op, args =>
      if args.all Value.isNum then
        match op, args with
        | .add, [.num x, .num y] => .ok (.num (x + y))
        | .mul, [.num x, .num y] => .ok (.num (x * y))
        | _, _ => .error .valueError
      else .error .typeMismatch
  | .jvp i prev, op, args =>
      let args := args.map (JVPInterpreter.lift i)
      (match op, args with
       | .add, [x, y] => do
           let p ← pureOp prev .add [x.primal, y.primal]
           let t ← pureOp prev .add [x.tangent, y.tangent]
           pure (Value.dual i p t)
       | .mul, [x, y] => do
           let x := JVPInterpreter.lift i x
           let y := JVPInterpreter.lift i y
           let p ← pureOp prev .mul [x.primal, y.primal]
           let a ← pureOp prev .mul [x.primal, y.tangent]
           let b ← pureOp prev .mul [x.tangent, y.primal]
           let t ← pureOp prev .add [a, b]
           pure (Value.dual i p t)
       | _, _ => .error .valueError)
  | .staging _, _, _ => .error .valueError

/-- Stateless mirror of `foo`. -/
def fooPure (cur : Interp) (x : Value) : Except Err Value := do
  let a ← pureOp cur .add [x, .num 3]
  pureOp cur .mul [x, a]

/-- Stateless mirror of `derivative`: `supply` is the next interpreter
identity tag; the callee receives the new interpreter tower and tag
supply. -/
def derivativePure (cur : Interp) (supply : Nat)
    (f : Interp → Nat → Value → Except Err Value) (x : Value) : Except Err Value := do
  let r ← f (.jvp supply cur) (supply + 1) (Value.dual supply x (.num 1))
  pure (JVPInterpreter.lift supply r).tangent

/-- Stateless mirror of `nth_order_derivative` applied to `foo`. -/
def nthPure (n : Nat) (cur : Interp) (supply : Nat) (x : Value) : Except Err Value :=
  match n with
  | 0 => fooPure cur x
  | n + 1 => derivativePure cur supply (fun c s y => nthPure n c s y) x

/-! ### A deep embedding of the user programs build_jaxpr is applied to

A Python function handed to `build_jaxpr` interacts with the tracing
machinery only through the dispatching entry points `add`/`mul`, applied to
its formal parameters, float literals and previously computed results.
`Expr` is that class of straight-line user programs, and `runExpr` runs one
against the dispatch mechanism exactly as the Python function body would. -/
inductive Expr where
  | arg : Nat → Expr
  | lit : Int → Expr
  | prim : Op → Expr → Expr → Expr
deriving DecidableEq

/-- Run a user program: parameter references read the argument tuple, and
every primitive application goes through `dispatch` on the current
interpreter. -/
def runExpr (e : Expr) (params : List Value) : M Value :=
  match e with
  | .arg k => fun s =>
      match params.get? k with
      | some v => (.ok v, s)
      | none => (.error .valueError, s)
  | .lit x => pure (.num x)
  | .prim op a b => do
      let x ← runExpr a params
      let y ← runExpr b params
      dispatch op [x, y]

/-- `foo` as a deep-embedded user program: `mul(x, add(x, 3.0))`. -/
def fooExpr : Expr := .prim .mul (.arg 0) (.prim .add (.arg 0) (.lit 3))

/-- The argument tuple a staged user program runs over: the `Value.var`
views of the `p` allocated parameter names `v_1 … v_p`. -/
def stageParams (p : Nat) : List Value :=
  (List.range' 1 p).map (fun k => Value.var (vname k))

/-- An atom whose variables all lie in `bound` (a float literal, or a bound
variable; dual numbers are not atoms). -/
def isAtomIn (bound : List String) : Value → Prop
  | .num _ => True
  | .var x => x ∈ bound
  | .dual _ _ _ => False

/-- An atom over the variables `v_1 … v_m`. -/
def AtomLe (m : Nat) : Value → Prop
  | .num _ => True
  | .var x => ∃ k, 1 ≤ k ∧ k ≤ m ∧ x = vname k
  | .dual _ _ _ => False

/-- The staging invariant maintained while a user program runs under the
staging interpreter `i` after `p` parameters were allocated: the name
counter counts the parameters plus the equations emitted so far, the `k`-th
equation binds `v_(p+k+1)`, and its arguments are atoms over the variables
bound before it. -/
structure GoodStaging (i p : Nat) (s : St) : Prop where
  cur : s.cur = .staging i
  counter : (stagingGet s i).name_counter = p + (stagingGet s i).equations.length
  eqns : ∀ k eqn, (stagingGet s i).equations.get? k = some eqn →
    eqn.var = vname (p + k + 1) ∧ ∀ a ∈ eqn.args, AtomLe (p + k) a

/-! ### The nested-structure flattener

Modelled from the spec: the repository's flattener implementation is not
under `src/` (only the serialized pytree protocol declarations are), so the
flattener is reconstructed from the spec's words: containers are sequences,
mappings with named keys, None/empty, and registered custom containers; a
descriptor records the container shape independent of the leaf values;
`flatten` returns the leaves in order plus the descriptor and `unflatten` is
the structural inverse, failing with `ArityMismatch` on a leaf-count
mismatch. -/

/-- Modelled from the spec: the supported container kinds — sequence,
mapping with named keys, None/empty, and custom-registered containers
(identified by their registration tag, their children ordered by the
registered flatten). -/
inductive NodeKind where
  | sequence : NodeKind
  | mapping : List String → NodeKind
  | noneEmpty : NodeKind
  | custom : Nat → NodeKind
deriving DecidableEq

/-- Modelled from the spec: an arbitrarily nested structure over leaves
`α` — a leaf is any value not recognized as a supported container. -/
inductive PyTree (α : Type) where
  | leaf : α → PyTree α
  | node : NodeKind → List (PyTree α) → PyTree α

/-- Modelled from the spec: the structural descriptor, describing the
container shape (leaf / node kind with child descriptors) independent of
leaf values. -/
inductive TreeDef where
  | leaf : TreeDef
  | node : NodeKind → List TreeDef → TreeDef

mutual

/-- Modelled from the spec: `flatten(value) -> (leaves, descriptor)`,
walking containers recursively, leaves in left-to-right order. -/
def flatten {α : Type} : PyTree α → List α × TreeDef
  | .leaf a => ([a], .leaf)
  | .node k ts => ((flattenList ts).1, .node k (flattenList ts).2)

/-- `flatten` over the children of a container. -/
def flattenList {α : Type} : List (PyTree α) → List α × List TreeDef
  | [] => ([], [])
  | t :: ts => ((flatten t).1 ++ (flattenList ts).1, (flatten t).2 :: (flattenList ts).2)

end

mutual

/-- Modelled from the spec: rebuild a value from a descriptor, consuming a
prefix of the leaf sequence and returning the unconsumed remainder; a
missing leaf is an `ArityMismatch`. -/
def unflattenPartial {α : Type} : TreeDef → List α → Except Err (PyTree α × List α)
  | .leaf, [] => .error .arityMismatch
  | .leaf, a :: rest => .ok (.leaf a, rest)
  | .node k ds, ls =>
      match unflattenList ds ls with
      | .ok (ts, rest) => .ok (.node k ts, rest)
      | .error e => .error e

/-- Rebuild the children of a container in order. -/
def unflattenList {α : Type} : List TreeDef → List α → Except Err (List (PyTree α) × List α)
  | [], ls => .ok ([], ls)
  | d :: ds, ls =>
      match unflattenPartial d ls with
      | .ok (t, rest) =>
          match unflattenList ds rest with
          | .ok (ts, rest1) => .ok (t :: ts, rest1)
          | .error e => .error e
      | .error e => .error e

end

/-- Modelled from the spec: `unflatten(descriptor, leaves)`, the exact
structural inverse of `flatten`; leftover leaves are an `ArityMismatch`
(the leaf count implied by the descriptor must match the sequence length). -/
def unflatten {α : Type} (d : TreeDef) (ls : List α) : Except Err (PyTree α) :=
  match unflattenPartial d ls with
  | .ok (t, []) => .ok t
  | .ok (_, _ :: _) => .error .arityMismatch
  | .error e => .error e

mutual

/-- Relabel the leaves of a structure, keeping the container shape — "equal
container shape but different leaf values". -/
def PyTree.mapLeaves {α β : Type} (f : α → β) : PyTree α → PyTree β
  | .leaf a => .leaf (f a)
  | .node k ts => .node k (PyTree.mapLeavesList f ts)

/-- `mapLeaves` over the children of a container. -/
def PyTree.mapLeavesList {α β : Type} (f : α → β) : List (PyTree α) → List (PyTree β)
  | [] => []
  | t :: ts => PyTree.mapLeaves f t :: PyTree.mapLeavesList f ts

end

/-! ### Decoding decimal digit strings (for the freshness of `v_<n>` names) -/

/-- The numeric value of a decimal digit character. -/
def digitVal (c : Char) : Nat := c.toNat - '0'.toNat

/-- Read a most-significant-first digit list back as a number. -/
def decodeDigits (l : List Char) : Nat := l.foldl (fun a c => 10 * a + digitVal c) 0

/-! ## Theorems -/

theorem M.pure_def {α} (a : α) (s : St) : (pure a : M α) s = (.ok a, s) := rfl

theorem M.bind_def {α β} (m : M α) (f : α → M β) (s : St) :
    (m >>= f) s =
      match m s with
      | (.ok a, s1) => f a s1
      | (.error e, s1) => (.error e, s1) := rfl

/-- C2: entering and exiting the scoped interpreter change always restores
the interpreter that was current immediately before entry, whether the
enclosed computation returns normally or raises; the enclosed computation's
outcome (normal result or propagated exception) is passed through
unchanged. -/
theorem set_interpreter_restores_cur {α} (I : Interp) (m : M α) (s : St) :
    ((set_interpreter I m) s).2.cur = s.cur
    ∧ ((set_interpreter I m) s).1 = (m { s with cur := I }).1 :=
  ⟨rfl, rfl⟩

/-- C7: the evaluating interpreter fails with `TypeMismatch` (surfacing the
error to the caller with the state untouched) whenever any argument is not a
concrete float, and on concrete floats returns the sum for `add` and the
product for `mul`. -/
theorem eval_interpreter_rules :
    (∀ (op : Op) (args : List Value) (s : St), args.all Value.isNum = false →
        interpretOp .eval op args s = (.error .typeMismatch, s))
    ∧ (∀ (x y : Int) (s : St),
        interpretOp .eval .add [.num x, .num y] s = (.ok (.num (x + y)), s))
    ∧ (∀ (x y : Int) (s : St),
        interpretOp .eval .mul [.num x, .num y] s = (.ok (.num (x * y)), s)) := by
  refine ⟨?_, fun x y s => rfl, fun x y s => rfl⟩
  intro op args s h
  simp [interpretOp, h]

/-- Witness for C7 at concrete inputs: a non-float argument fails with
`TypeMismatch`, and `add` on `2.0` and `3.0` returns `5.0`. -/
theorem eval_interpreter_rules_witness :
    ([Value.var "x"].all Value.isNum = false
      ∧ interpretOp .eval .add [Value.var "x"] St.init = (.error .typeMismatch, St.init))
    ∧ interpretOp .eval .add [.num 2, .num 3] St.init = (.ok (.num 5), St.init) :=
  ⟨⟨rfl, eval_interpreter_rules.1 .add [Value.var "x"] St.init rfl⟩,
   eval_interpreter_rules.2.1 2 3 St.init⟩

/-- C1: perturbation confusion is avoided — for
`f(x) = mul(x, derivative(lambda y: x, 0.0))` the derivative of `f` at `0.0`
is `0.0`, and `lift` treats a dual number owned by a different interpreter
as a constant with tangent zero. -/
theorem perturbation_confusion_avoided :
    runM (derivative confusionF (.num 0)) = .ok (.num 0)
    ∧ ∀ (i j : Nat) (p t : Value), j ≠ i →
        JVPInterpreter.lift i (.dual j p t) = .dual i (.dual j p t) (.num 0) := by
  refine ⟨by decide, ?_⟩
  intro i j p t h
  simp [JVPInterpreter.lift, h]

/-- Witness for C1's ownership clause at concrete tags: interpreter `0`
lifts a dual number owned by interpreter `1` to a constant. -/
theorem perturbation_confusion_avoided_witness :
    (1 : Nat) ≠ 0
    ∧ JVPInterpreter.lift 0 (.dual 1 (.num 2) (.num 3))
        = .dual 0 (.dual 1 (.num 2) (.num 3)) (.num 0) :=
  ⟨by decide, perturbation_confusion_avoided.2 0 1 (.num 2) (.num 3) (by decide)⟩

theorem set_interpreter_of_fix {α} (I : Interp) (m : M α) (r : Except Err α) (s : St)
    (hm : m { s with cur := I } = (r, { s with cur := I })) :
    set_interpreter I m s = (r, s) := by
  simp only [set_interpreter, hm]

theorem interpretOp_pureOp : ∀ (I : Interp), I.isTower = true →
    ∀ op args s, interpretOp I op args s = (pureOp I op args, s) := by
  intro I
  induction I with
  | eval =>
      intro _ op args s
      by_cases hc : args.all Value.isNum
      · simp only [interpretOp, pureOp, hc, if_true]
        split <;> rfl
      · simp [interpretOp, pureOp, hc]
  | staging i =>
      intro h
      exact absurd h (by simp [Interp.isTower])
  | jvp i prev ih =>
      intro h op args s
      have IH := ih h
      cases op with
      | add =>
          rcases args with _ | ⟨x, _ | ⟨y, _ | ⟨z, rest⟩⟩⟩
          · rfl
          · rfl
          · simp only [interpretOp, pureOp, List.map]
            apply set_interpreter_of_fix
            simp only [M.bind_def, IH]
            cases pureOp prev .add
                [(JVPInterpreter.lift i x).primal, (JVPInterpreter.lift i y).primal] with
            | error e => rfl
            | ok p =>
                cases pureOp prev .add
                    [(JVPInterpreter.lift i x).tangent, (JVPInterpreter.lift i y).tangent] with
                | error e => rfl
                | ok t => rfl
          · rfl
      | mul =>
          rcases args with _ | ⟨x, _ | ⟨y, _ | ⟨z, rest⟩⟩⟩
          · rfl
          · rfl
          · simp only [interpretOp, pureOp, List.map]
            apply set_interpreter_of_fix
            simp only [M.bind_def, IH]
            cases pureOp prev .mul
                [(JVPInterpreter.lift i (JVPInterpreter.lift i x)).primal,
                 (JVPInterpreter.lift i (JVPInterpreter.lift i y)).primal] with
            | error e => rfl
            | ok p =>
                cases pureOp prev .mul
                    [(JVPInterpreter.lift i (JVPInterpreter.lift i x)).primal,
                     (JVPInterpreter.lift i (JVPInterpreter.lift i y)).tangent] with
                | error e => rfl
                | ok a =>
                    cases pureOp prev .mul
                        [(JVPInterpreter.lift i (JVPInterpreter.lift i x)).tangent,
                         (JVPInterpreter.lift i (JVPInterpreter.lift i y)).primal] with
                    | error e => rfl
                    | ok b =>
                        simp only [M.pure_def, Bind.bind, Except.bind]
                        cases pureOp prev .add [a, b] with
                        | error e => rfl
                        | ok t => rfl
          · rfl

theorem foo_fooPure (s : St) (h : s.cur.isTower = true) (x : Value) :
    foo x s = (fooPure s.cur x, s) := by
  simp only [foo, fooPure, M.bind_def, add, mul, dispatch, interpretOp_pureOp s.cur h,
    Bind.bind, Except.bind]
  cases pureOp s.cur .add [x, .num 3] with
  | error e => rfl
  | ok a => exact interpretOp_pureOp s.cur h .mul [x, a] s

theorem nth_order_nthPure : ∀ (n : Nat) (x : Value) (s : St), s.cur.isTower = true →
    (nth_order_derivative n foo x) s
      = (nthPure n s.cur s.next_id x, { s with next_id := s.next_id + n }) := by
  intro n
  induction n with
  | zero =>
      intro x s h
      have hf := foo_fooPure s h x
      simpa [nth_order_derivative, nthPure] using hf
  | succ n ih =>
      intro x s h
      have htower : (Interp.jvp s.next_id s.cur).isTower = true := h
      have hinner := ih (Value.dual s.next_id x (.num 1))
        { s with next_id := s.next_id + 1, cur := .jvp s.next_id s.cur } htower
      simp only [nth_order_derivative, nthPure, derivative, derivativePure, jvp,
        M.bind_def, getCur, freshInterpId, set_interpreter, hinner]
      cases nthPure n (Interp.jvp s.next_id s.cur) (s.next_id + 1)
          (Value.dual s.next_id x (.num 1)) with
      | error e => simp [Bind.bind, Except.bind]; omega
      | ok v =>
          simp [Bind.bind, Except.bind, Pure.pure, Except.pure]
          omega

/-- C3: the nth-order derivative of `foo(x) = x * (x + 3.0)` at `x = 2.0`,
by nesting the forward-mode entry point, is `10.0, 7.0, 2.0, 0.0, 0.0` for
`n = 0, 1, 2, 3, 4`. -/
theorem nth_order_derivatives_foo :
    runM (nth_order_derivative 0 foo (.num 2)) = .ok (.num 10)
    ∧ runM (nth_order_derivative 1 foo (.num 2)) = .ok (.num 7)
    ∧ runM (nth_order_derivative 2 foo (.num 2)) = .ok (.num 2)
    ∧ runM (nth_order_derivative 3 foo (.num 2)) = .ok (.num 0)
    ∧ runM (nth_order_derivative 4 foo (.num 2)) = .ok (.num 0) := by
  have key : ∀ k, runM (nth_order_derivative k foo (.num 2)) = nthPure k .eval 0 (.num 2) := by
    intro k
    have h := nth_order_nthPure k (.num 2) St.init rfl
    show (nth_order_derivative k foo (.num 2) St.init).1 = _
    rw [h]
    rfl
  exact ⟨by rw [key]; decide, by rw [key]; decide, by rw [key]; decide,
         by rw [key]; decide, by rw [key]; decide⟩

theorem interpretOp_preserves_cur (I : Interp) (op : Op) (args : List Value) (s : St) :
    ((interpretOp I op args) s).2.cur = s.cur := by
  cases I with
  | eval =>
      by_cases hc : args.all Value.isNum
      · simp only [interpretOp, hc, if_true]
        split <;> rfl
      · simp [interpretOp, hc]
  | jvp i prev => rfl
  | staging i => rfl

theorem set_interpreter_congr {α} (I : Interp) (m1 m2 : M α) (s : St)
    (h : m1 { s with cur := I } = m2 { s with cur := I }) :
    set_interpreter I m1 s = set_interpreter I m2 s := by
  simp only [set_interpreter, h]

theorem lift_lift (i : Nat) (x : Value) :
    JVPInterpreter.lift i (JVPInterpreter.lift i x) = JVPInterpreter.lift i x := by
  cases x with
  | dual j p t => by_cases h : j = i <;> simp [JVPInterpreter.lift, h]
  | num q => simp [JVPInterpreter.lift]
  | var v => simp [JVPInterpreter.lift]

/-- C4: under a JVP interpreter, each argument is lifted (a dual number
owned by this interpreter unchanged, anything else wrapped with tangent
zero); `add` yields the dual number of the sums and `mul` the dual number
with the product rule tangent, with every component operation dispatched
under the interpreter that was current at the JVP interpreter's
construction (its `prev_interpreter`). -/
theorem jvp_interpret_rules (i : Nat) (prev : Interp) (x y : Value) (s : St) :
    (interpretOp (.jvp i prev) .add [x, y] s =
      set_interpreter prev (do
        let x := JVPInterpreter.lift i x
        let y := JVPInterpreter.lift i y
        let p ← dispatch .add [x.primal, y.primal]
        let t ← dispatch .add [x.tangent, y.tangent]
        pure (.dual i p t)) s)
    ∧ (interpretOp (.jvp i prev) .mul [x, y] s =
      set_interpreter prev (do
        let x := JVPInterpreter.lift i x
        let y := JVPInterpreter.lift i y
        let p ← dispatch .mul [x.primal, y.primal]
        let a ← dispatch .mul [x.primal, y.tangent]
        let b ← dispatch .mul [x.tangent, y.primal]
        let t ← dispatch .add [a, b]
        pure (.dual i p t)) s)
    ∧ (∀ p t, JVPInterpreter.lift i (.dual i p t) = .dual i p t)
    ∧ (∀ v, (∀ p t, v ≠ .dual i p t) → JVPInterpreter.lift i v = .dual i v (.num 0)) := by
  refine ⟨?_, ?_, ?_, ?_⟩
  · show set_interpreter prev _ s = set_interpreter prev _ s
    apply set_interpreter_congr
    simp only [List.map, M.bind_def, dispatch]
    rcases hr : interpretOp prev .add
        [(JVPInterpreter.lift i x).primal, (JVPInterpreter.lift i y).primal]
        { s with cur := prev } with ⟨r1, s1⟩
    have hcur : s1.cur = prev := by
      have hh := interpretOp_preserves_cur prev .add
        [(JVPInterpreter.lift i x).primal, (JVPInterpreter.lift i y).primal]
        { s with cur := prev }
      rw [hr] at hh
      exact hh
    rcases r1 with e | p
    · rfl
    · simp only [hcur]
  · show set_interpreter prev _ s = set_interpreter prev _ s
    apply set_interpreter_congr
    simp only [List.map, M.bind_def, dispatch, lift_lift]
    rcases hr1 : interpretOp prev .mul
        [(JVPInterpreter.lift i x).primal, (JVPInterpreter.lift i y).primal]
        { s with cur := prev } with ⟨r1, s1⟩
    have hcur1 : s1.cur = prev := by
      have hh := interpretOp_preserves_cur prev .mul
        [(JVPInterpreter.lift i x).primal, (JVPInterpreter.lift i y).primal]
        { s with cur := prev }
      rw [hr1] at hh
      exact hh
    rcases r1 with e | p
    · rfl
    · simp only [hcur1]
      rcases hr2 : interpretOp prev .mul
          [(JVPInterpreter.lift i x).primal, (JVPInterpreter.lift i y).tangent] s1 with ⟨r2, s2⟩
      have hcur2 : s2.cur = prev := by
        have hh := interpretOp_preserves_cur prev .mul
          [(JVPInterpreter.lift i x).primal, (JVPInterpreter.lift i y).tangent] s1
        rw [hr2] at hh
        rw [hh, hcur1]
      rcases r2 with e | a
      · rfl
      · simp only [hcur2]
        rcases hr3 : interpretOp prev .mul
            [(JVPInterpreter.lift i x).tangent, (JVPInterpreter.lift i y).primal] s2 with ⟨r3, s3⟩
        have hcur3 : s3.cur = prev := by
          have hh := interpretOp_preserves_cur prev .mul
            [(JVPInterpreter.lift i x).tangent, (JVPInterpreter.lift i y).primal] s2
          rw [hr3] at hh
          rw [hh, hcur2]
        rcases r3 with e | b
        · rfl
        · simp only [hcur3]
  · intro p t
    simp [JVPInterpreter.lift]
  · intro v hv
    cases v with
    | num q => simp [JVPInterpreter.lift]
    | var w => simp [JVPInterpreter.lift]
    | dual j p t =>
        have hj : j ≠ i := fun hji => hv p t (by rw [hji])
        simp [JVPInterpreter.lift, hj]

/-- Witness for C4's conditional clause: `1.0` is not a dual number owned by
interpreter `0`, and lifting it wraps it as a constant with tangent zero. -/
theorem jvp_interpret_rules_witness :
    (∀ p t : Value, Value.num 1 ≠ Value.dual 0 p t)
    ∧ JVPInterpreter.lift 0 (Value.num 1) = Value.dual 0 (Value.num 1) (Value.num 0) :=
  ⟨fun _ _ h => Value.noConfusion h,
   (jvp_interpret_rules 0 .eval (Value.num 1) (Value.num 1) St.init).2.2.2
     (Value.num 1) (fun _ _ h => Value.noConfusion h)⟩

/-- C5: staging `foo` yields a jaxpr with exactly one parameter, exactly two
equations — first `add`, then `mul`, one per primitive invocation in program
order — and a single output atom, and evaluating it at `2.0` gives `10.0`. -/
theorem build_jaxpr_foo_staging :
    runM (build_jaxpr fooArgs 1)
      = .ok ⟨["v_1"],
             [⟨"v_2", .add, [.var "v_1", .num 3]⟩,
              ⟨"v_3", .mul, [.var "v_1", .var "v_2"]⟩],
             .var "v_3"⟩
    ∧ (∀ j, runM (build_jaxpr fooArgs 1) = .ok j →
        j.parameters.length = 1 ∧ j.equations.map Equation.op = [.add, .mul])
    ∧ runM (do let j ← build_jaxpr fooArgs 1; eval_jaxpr j [.num 2]) = .ok (.num 10) := by
  refine ⟨by decide, ?_, by decide⟩
  intro j hj
  have h : j = ⟨["v_1"],
             [⟨"v_2", .add, [.var "v_1", .num 3]⟩,
              ⟨"v_3", .mul, [.var "v_1", .var "v_2"]⟩],
             .var "v_3"⟩ := by
    have h0 : runM (build_jaxpr fooArgs 1)
      = .ok (⟨["v_1"],
             [⟨"v_2", .add, [.var "v_1", .num 3]⟩,
              ⟨"v_3", .mul, [.var "v_1", .var "v_2"]⟩],
             .var "v_3"⟩ : Jaxpr) := by decide
    rw [h0] at hj
    exact (Except.ok.inj hj).symm
  rw [h]
  exact ⟨rfl, rfl⟩

/-- Witness for C5's conditional clause at the staged jaxpr itself. -/
theorem build_jaxpr_foo_staging_witness :
    runM (build_jaxpr fooArgs 1)
      = .ok ⟨["v_1"],
             [⟨"v_2", .add, [.var "v_1", .num 3]⟩,
              ⟨"v_3", .mul, [.var "v_1", .var "v_2"]⟩],
             .var "v_3"⟩
    ∧ (["v_1"] : List String).length = 1
    ∧ ([⟨"v_2", .add, [.var "v_1", .num 3]⟩,
        ⟨"v_3", .mul, [.var "v_1", .var "v_2"]⟩] : List Equation).map Equation.op
        = [.add, .mul] :=
  ⟨by decide,
   (build_jaxpr_foo_staging.2.1
      ⟨["v_1"],
       [⟨"v_2", .add, [.var "v_1", .num 3]⟩,
        ⟨"v_3", .mul, [.var "v_1", .var "v_2"]⟩],
       .var "v_3"⟩ (by decide)).1,
   (build_jaxpr_foo_staging.2.1
      ⟨["v_1"],
       [⟨"v_2", .add, [.var "v_1", .num 3]⟩,
        ⟨"v_3", .mul, [.var "v_1", .var "v_2"]⟩],
       .var "v_3"⟩ (by decide)).2⟩

/-- C6: evaluating a staged graph dispatches every equation through the
current interpreter, so the evaluation is itself differentiable: the jvp of
`x ↦ eval_jaxpr(build_jaxpr(foo, 1), (x,))` at primal `2.0`, tangent `1.0`
is `(10.0, 7.0)`, the same as differentiating `foo` directly. -/
theorem eval_jaxpr_retransformable :
    runM (jvp (fun x => do let j ← build_jaxpr fooArgs 1; eval_jaxpr j [x])
          (.num 2) (.num 1)) = .ok (.num 10, .num 7)
    ∧ runM (jvp foo (.num 2) (.num 1)) = .ok (.num 10, .num 7) :=
  ⟨by decide, by decide⟩

/-! ### Injectivity of the decimal rendering of the fresh-name counter -/

theorem toDigitsCore_append (fuel : Nat) : ∀ (n : Nat) (acc : List Char),
    Nat.toDigitsCore 10 fuel n acc = Nat.toDigitsCore 10 fuel n [] ++ acc := by
  induction fuel with
  | zero => intro n acc; simp [Nat.toDigitsCore]
  | succ fuel ih =>
      intro n acc
      simp only [Nat.toDigitsCore]
      by_cases h : n / 10 = 0
      · simp [h]
      · simp only [h, if_false]
        rw [ih (n / 10) (Nat.digitChar (n % 10) :: acc), ih (n / 10) [Nat.digitChar (n % 10)]]
        simp

theorem toDigitsCore_fuel : ∀ (n f1 f2 : Nat), n < f1 → n < f2 →
    Nat.toDigitsCore 10 f1 n [] = Nat.toDigitsCore 10 f2 n [] := by
  intro n
  induction n using Nat.strong_induction_on with
  | _ n ih =>
      intro f1 f2 h1 h2
      obtain ⟨g1, rfl⟩ : ∃ k, f1 = k + 1 := ⟨f1 - 1, by omega⟩
      obtain ⟨g2, rfl⟩ : ∃ k, f2 = k + 1 := ⟨f2 - 1, by omega⟩
      simp only [Nat.toDigitsCore]
      by_cases h : n / 10 = 0
      · simp [h]
      · simp only [h, if_false]
        rw [toDigitsCore_append g1, toDigitsCore_append g2]
        have hn0 : n ≠ 0 := fun h0 => h (by simp [h0])
        have hlt : n / 10 < n := Nat.div_lt_self (Nat.pos_of_ne_zero hn0) (by omega)
        rw [ih (n / 10) hlt g1 g2 (by omega) (by omega)]

theorem digitVal_digitChar (k : Nat) (h : k < 10) : digitVal (Nat.digitChar k) = k := by
  interval_cases k <;> decide

theorem decodeDigits_toDigits : ∀ n : Nat, decodeDigits (Nat.toDigits 10 n) = n := by
  intro n
  induction n using Nat.strong_induction_on with
  | _ n ih =>
      rw [Nat.toDigits]
      simp only [Nat.toDigitsCore]
      by_cases h : n / 10 = 0
      · simp only [h, if_true]
        have h10 : n < 10 := by omega
        simp [decodeDigits, Nat.mod_eq_of_lt h10, digitVal_digitChar n h10]
      · simp only [h, if_false]
        have hn0 : n ≠ 0 := fun h0 => h (by simp [h0])
        have hlt : n / 10 < n := Nat.div_lt_self (Nat.pos_of_ne_zero hn0) (by omega)
        rw [toDigitsCore_append]
        rw [toDigitsCore_fuel (n / 10) n (n / 10 + 1) (by omega) (by omega)]
        have hrec := ih (n / 10) hlt
        rw [Nat.toDigits] at hrec
        simp only [decodeDigits, List.foldl_append] at hrec ⊢
        rw [hrec]
        simp only [List.foldl_cons, List.foldl_nil]
        rw [digitVal_digitChar (n % 10) (by omega)]
        omega

theorem vname_inj : ∀ (m n : Nat), vname m = vname n → m = n := by
  intro m n h
  have hdrop : ∀ k : Nat, (vname k).data.drop 2 = Nat.toDigits 10 k := fun k => rfl
  have h2 : decodeDigits ((vname m).data.drop 2)
      = decodeDigits ((vname n).data.drop 2) := by rw [h]
  rw [hdrop, hdrop, decodeDigits_toDigits, decodeDigits_toDigits] at h2
  exact h2

/-! ### The staging invariant -/

theorem stagingGet_set_self (s : St) (i : Nat) (st : StagingSt) :
    stagingGet (stagingSet s i st) i = st := by
  simp [stagingGet, stagingSet, List.lookup]

theorem stagingGet_cur (s : St) (I : Interp) (i : Nat) :
    stagingGet { s with cur := I } i = stagingGet s i := rfl

theorem AtomLe_mono {m m2 : Nat} (h : m ≤ m2) : ∀ v, AtomLe m v → AtomLe m2 v := by
  intro v hv
  cases v with
  | num q => trivial
  | var x =>
      obtain ⟨k, h1, h2, h3⟩ := hv
      exact ⟨k, h1, le_trans h2 h, h3⟩
  | dual i p t => exact hv.elim

theorem mkParameters_spec (i : Nat) : ∀ (p : Nat) (s : St),
    ∃ s2, mkParameters i p s
        = (.ok ((List.range' ((stagingGet s i).name_counter + 1) p).map vname), s2)
      ∧ stagingGet s2 i
          = ⟨(stagingGet s i).equations, (stagingGet s i).name_counter + p⟩
      ∧ s2.cur = s.cur := by
  intro p
  induction p with
  | zero =>
      intro s
      refine ⟨s, by simp [mkParameters, M.pure_def, List.range'], ?_, rfl⟩
      simp
  | succ p ih =>
      intro s
      obtain ⟨s2, h1, h2, h3⟩ :=
        ih (stagingSet s i { stagingGet s i with name_counter := (stagingGet s i).name_counter + 1 })
      rw [stagingGet_set_self] at h1 h2
      refine ⟨s2, ?_, ?_, ?_⟩
      · show (fresh_var i >>= fun v => mkParameters i p >>= fun vs => pure (v :: vs)) s = _
        rw [M.bind_def]
        show (mkParameters i p >>= fun vs => pure (vname ((stagingGet s i).name_counter + 1) :: vs))
            (stagingSet s i { stagingGet s i with name_counter := (stagingGet s i).name_counter + 1 }) = _
        rw [M.bind_def, h1]
        rfl
      · rw [h2]
        simp
        omega
      · rw [h3]
        rfl

theorem M.bind_inv {α β} (m : M α) (f : α → M β) (s : St) (r : Except Err β) (s2 : St)
    (h : (m >>= f) s = (r, s2)) :
    (∃ a s1, m s = (.ok a, s1) ∧ f a s1 = (r, s2))
    ∨ (∃ e, m s = (.error e, s2) ∧ r = .error e) := by
  rcases hm : m s with ⟨r1, s1⟩
  rw [M.bind_def, hm] at h
  cases r1 with
  | ok a => exact .inl ⟨a, s1, rfl, h⟩
  | error e =>
      have h2 : ((Except.error e : Except Err β), s1) = (r, s2) := h
      injection h2 with he hs
      subst hs
      exact Or.inr ⟨e, rfl, he.symm⟩

theorem dispatch_staging (i : Nat) (op : Op) (args : List Value) (s : St)
    (h : s.cur = .staging i) :
    dispatch op args s
      = (.ok (.var (vname ((stagingGet s i).name_counter + 1))),
         stagingSet s i
           ⟨(stagingGet s i).equations
              ++ [⟨vname ((stagingGet s i).name_counter + 1), op, args⟩],
            (stagingGet s i).name_counter + 1⟩) := by
  rw [dispatch, h]
  rfl

theorem runExpr_invariant (i p : Nat) (e : Expr) :
    ∀ s r s1, GoodStaging i p s → runExpr e (stageParams p) s = (r, s1) →
      GoodStaging i p s1
      ∧ (∃ tail, (stagingGet s1 i).equations = (stagingGet s i).equations ++ tail)
      ∧ (∀ v, r = .ok v → AtomLe (stagingGet s1 i).name_counter v) := by
  induction e with
  | arg k =>
      intro s r s1 hs hrun
      have hrun2 : ((match (stageParams p).get? k with
          | some v => ((Except.ok v : Except Err Value), s)
          | none => (.error .valueError, s)) : Except Err Value × St) = (r, s1) := hrun
      by_cases hk : k < p
      · have hget : (stageParams p).get? k = some (.var (vname (1 + k))) := by
          simp [stageParams, List.get?_eq_getElem?, List.getElem?_map, List.getElem?_range', hk]
        rw [hget] at hrun2
        have hrun3 : ((Except.ok (Value.var (vname (1 + k))) : Except Err Value), s)
            = (r, s1) := hrun2
        injection hrun3 with h1 h2
        subst h2
        refine ⟨hs, ⟨[], by simp⟩, ?_⟩
        intro v hv
        rw [← h1] at hv
        injection hv with hv2
        subst hv2
        have hcnt := hs.counter
        exact ⟨1 + k, by omega, by omega, rfl⟩
      · have hget : (stageParams p).get? k = none := by
          simp [stageParams, List.get?_eq_getElem?, List.getElem?_map]
          omega
        rw [hget] at hrun2
        have hrun3 : ((Except.error Err.valueError : Except Err Value), s) = (r, s1) := hrun2
        injection hrun3 with h1 h2
        subst h2
        refine ⟨hs, ⟨[], by simp⟩, ?_⟩
        intro v hv
        rw [← h1] at hv
        cases hv
  | lit q =>
      intro s r s1 hs hrun
      have hrun2 : ((Except.ok (Value.num q) : Except Err Value), s) = (r, s1) := hrun
      injection hrun2 with h1 h2
      subst h2
      refine ⟨hs, ⟨[], by simp⟩, ?_⟩
      intro v hv
      rw [← h1] at hv
      injection hv with hv2
      subst hv2
      trivial
  | prim op a b iha ihb =>
      intro s r s3 hs hrun
      rcases M.bind_inv _ _ _ _ _ hrun with ⟨x, s1, hra, hrest⟩ | ⟨e, hra, hre⟩
      · obtain ⟨hg1, ⟨ta, hta⟩, hva⟩ := iha s (.ok x) s1 hs hra
        rcases M.bind_inv _ _ _ _ _ hrest with ⟨y, s2, hrb, hdisp⟩ | ⟨e, hrb, hre⟩
        · obtain ⟨hg2, ⟨tb, htb⟩, hvb⟩ := ihb s1 (.ok y) s2 hg1 hrb
          rw [dispatch_staging i op [x, y] s2 hg2.cur] at hdisp
          injection hdisp with h1 h2
          have hx : AtomLe (stagingGet s2 i).name_counter x := by
            have hxa := hva x rfl
            apply AtomLe_mono _ x hxa
            have hc1 := hg1.counter
            have hc2 := hg2.counter
            have hlen : (stagingGet s2 i).equations.length
                = (stagingGet s1 i).equations.length + tb.length := by
              rw [htb, List.length_append]
            omega
          have hy : AtomLe (stagingGet s2 i).name_counter y := hvb y rfl
          have hcnt2 := hg2.counter
          subst h2
          refine ⟨⟨?_, ?_, ?_⟩, ?_, ?_⟩
          · show (stagingSet s2 i _).cur = _
            rw [show (stagingSet s2 i _).cur = s2.cur from rfl, hg2.cur]
          · rw [stagingGet_set_self]
            simp only [List.length_append, List.length_cons, List.length_nil]
            omega
          · intro k eqn hk
            rw [stagingGet_set_self] at hk
            simp only [List.get?_eq_getElem?] at hk
            by_cases hk2 : k < (stagingGet s2 i).equations.length
            · rw [List.getElem?_append_left hk2, ← List.get?_eq_getElem?] at hk
              exact hg2.eqns k eqn hk
            · rw [List.getElem?_append_right (by omega)] at hk
              have hk0 : k - (stagingGet s2 i).equations.length = 0 := by
                by_contra hne
                rw [List.getElem?_eq_none (by simp; omega)] at hk
                cases hk
              rw [hk0] at hk
              simp only [List.getElem?_cons_zero] at hk
              injection hk with heq
              subst heq
              have hke : k = (stagingGet s2 i).equations.length := by omega
              subst hke
              constructor
              · show vname ((stagingGet s2 i).name_counter + 1) = _
                rw [hcnt2]
              · intro v hv
                have hv2 : v = x ∨ v = y := by simpa using hv
                rcases hv2 with rfl | rfl
                · exact AtomLe_mono (by omega) v hx
                · exact AtomLe_mono (by omega) v hy
          · refine ⟨ta ++ tb ++ [⟨vname ((stagingGet s2 i).name_counter + 1), op, [x, y]⟩], ?_⟩
            rw [stagingGet_set_self, htb, hta]
            simp [List.append_assoc]
          · intro v hv
            rw [← h1] at hv
            injection hv with hv2
            subst hv2
            rw [stagingGet_set_self]
            exact ⟨(stagingGet s2 i).name_counter + 1, by omega, le_refl _, rfl⟩
        · obtain ⟨hg2, ⟨tb, htb⟩, _⟩ := ihb s1 (.error e) s3 hg1 hrb
          refine ⟨hg2, ⟨ta ++ tb, by rw [htb, hta, List.append_assoc]⟩, ?_⟩
          intro v hv
          rw [hre] at hv
          cases hv
      · obtain ⟨hg1, ⟨ta, hta⟩, _⟩ := iha s (.error e) s3 hs hra
        refine ⟨hg1, ⟨ta, hta⟩, ?_⟩
        intro v hv
        rw [hre] at hv
        cases hv

theorem eqs_map_var (n K : Nat) (eqs : List Equation) (hlen : eqs.length = K)
    (hvars : ∀ k eqn, eqs.get? k = some eqn → eqn.var = vname (n + k + 1)) :
    eqs.map Equation.var = (List.range' (n + 1) K).map vname := by
  apply List.ext_getElem?
  intro k
  by_cases hk : k < K
  · rcases hget : eqs.get? k with _ | eqn
    · rw [List.get?_eq_none] at hget
      omega
    · have hvar := hvars k eqn hget
      rw [List.get?_eq_getElem?] at hget
      rw [List.getElem?_map, List.getElem?_map, hget, List.getElem?_range' _ _ hk]
      simp only [Option.map_some']
      rw [hvar]
      have : n + 1 + 1 * k = n + k + 1 := by omega
      rw [this]
  · rw [List.getElem?_map, List.getElem?_map,
      List.getElem?_eq_none (by omega), List.getElem?_eq_none (by simp; omega)]
    rfl

theorem atomLe_mem (n K : Nat) (eqs : List Equation) (hlen : eqs.length = K)
    (hvars : ∀ k eqn, eqs.get? k = some eqn → eqn.var = vname (n + k + 1)) :
    ∀ (m : Nat), m ≤ K → ∀ a, AtomLe (n + m) a →
      isAtomIn (((List.range' 1 n).map vname) ++ (eqs.take m).map Equation.var) a := by
  intro m hm a ha
  cases a with
  | num q => trivial
  | dual i p t => exact ha.elim
  | var x =>
      obtain ⟨jj, hj1, hj2, rfl⟩ := ha
      show vname jj ∈ _
      rw [List.mem_append]
      by_cases hjn : jj ≤ n
      · left
        rw [List.mem_map]
        refine ⟨jj, ?_, rfl⟩
        rw [List.mem_range'_1]
        omega
      · right
        have hidx : jj - n - 1 < m := by omega
        rcases hget : eqs.get? (jj - n - 1) with _ | eqn
        · rw [List.get?_eq_none] at hget
          omega
        · have hvar := hvars (jj - n - 1) eqn hget
          have hmem : eqn ∈ eqs.take m := by
            apply List.get?_mem (n := jj - n - 1)
            rw [List.get?_eq_getElem?, List.getElem?_take_of_lt hidx, ← List.get?_eq_getElem?]
            exact hget
          rw [List.mem_map]
          refine ⟨eqn, hmem, ?_⟩
          rw [hvar]
          have : n + (jj - n - 1) + 1 = jj := by omega
          rw [this]

theorem set_interpreter_run {α} (I : Interp) (m : M α) (s : St) (r : Except Err α) (s2 : St)
    (hm : m { s with cur := I } = (r, s2)) :
    set_interpreter I m s = (r, { s2 with cur := s.cur }) := by
  simp only [set_interpreter, hm]

/-- C8: every jaxpr built by `build_jaxpr` from a user program (a function
interacting with the machinery only through the dispatching primitives,
deep-embedded as `Expr`) is in single-static-assignment form: parameter
names and equation binders are pairwise distinct (the fresh-name allocator
is a monotonic counter), every equation argument references only parameters
or binders of earlier equations (or is a literal), and the return atom is a
literal, a parameter, or an equation binder. -/
theorem build_jaxpr_ssa (e : Expr) (n : Nat) (s0 : St) (j : Jaxpr) (sF : St)
    (h : build_jaxpr (fun vs => runExpr e vs) n s0 = (.ok j, sF)) :
    (j.parameters ++ j.equations.map Equation.var).Nodup
    ∧ (∀ k eqn, j.equations.get? k = some eqn →
        ∀ a ∈ eqn.args, isAtomIn (j.parameters ++ (j.equations.take k).map Equation.var) a)
    ∧ isAtomIn (j.parameters ++ j.equations.map Equation.var) j.return_val := by
  -- peel `newStagingInterpreter`
  rcases M.bind_inv _ _ _ _ _ h with ⟨i0, sA, hA, hK⟩ | ⟨er, hA, hre⟩
  swap
  · simp [newStagingInterpreter] at hA
  have hA2 : ((Except.ok s0.next_id : Except Err Nat),
      stagingSet { s0 with next_id := s0.next_id + 1 } s0.next_id ⟨[], 0⟩) = (.ok i0, sA) := hA
  injection hA2 with hA3 hA4
  injection hA3 with hA3
  have hGetA : stagingGet sA i0 = ⟨[], 0⟩ := by
    rw [← hA4, ← hA3]
    exact stagingGet_set_self _ _ _
  -- peel `mkParameters`
  obtain ⟨sB, hB1, hB2, hB3⟩ := mkParameters_spec i0 n sA
  rw [hGetA] at hB1 hB2
  simp only [Nat.zero_add] at hB1 hB2
  rcases M.bind_inv _ _ _ _ _ hK with ⟨params, sB2, hB4, hK2⟩ | ⟨er, hB4, hre⟩
  swap
  · rw [hB1] at hB4
    cases hB4
  rw [hB1] at hB4
  have hB5 : ((Except.ok ((List.range' 1 n).map vname) : Except Err (List String)), sB)
      = (.ok params, sB2) := hB4
  injection hB5 with hB6 hB7
  injection hB6 with hB6
  subst hB7
  subst hB6
  -- peel the traced call
  rcases M.bind_inv _ _ _ _ _ hK2 with ⟨result, sC, hC, hK3⟩ | ⟨er, hC, hre⟩
  swap
  · cases hre
  rcases hrun : runExpr e ((List.map vname (List.range' 1 n)).map Value.var)
      { sB with cur := .staging i0 } with ⟨rr, sD⟩
  rw [set_interpreter_run _ _ _ _ _ hrun] at hC
  have hC2 : (rr, { sD with cur := sB.cur }) = ((Except.ok result : Except Err Value), sC) := hC
  injection hC2 with hC3 hC4
  subst hC3
  -- the staged call ran under the staging invariant
  have hps : (List.map vname (List.range' 1 n)).map Value.var = stageParams n := by
    rw [stageParams, List.map_map]
    rfl
  rw [hps] at hrun
  have hgood : GoodStaging i0 n { sB with cur := .staging i0 } := by
    refine ⟨rfl, ?_, ?_⟩
    · rw [stagingGet_cur, hB2]
      simp
    · intro k eqn hk
      rw [stagingGet_cur, hB2] at hk
      cases hk
  obtain ⟨hgD, ⟨tail, htail⟩, hvD⟩ := runExpr_invariant i0 n e _ _ _ hgood hrun
  have hres : AtomLe (stagingGet sD i0).name_counter result := hvD result rfl
  -- peel `getEquations` and the final `pure`
  have hK4 : ((Except.ok (Jaxpr.mk ((List.range' 1 n).map vname) (stagingGet sC i0).equations result)
      : Except Err Jaxpr), sC) = (.ok j, sF) := hK3
  injection hK4 with hK5 hK6
  injection hK5 with hK5
  subst hK6
  -- move everything to sD
  have hCD : stagingGet sC i0 = stagingGet sD i0 := by
    rw [← hC4, stagingGet_cur]
  rw [hCD] at hK5
  subst hK5
  -- facts about the staged jaxpr
  have hcnt := hgD.counter
  have heqs := hgD.eqns
  have hmapvar := eqs_map_var n ((stagingGet sD i0).equations.length)
    ((stagingGet sD i0).equations) rfl (fun k eqn hk => (heqs k eqn hk).1)
  refine ⟨?_, ?_, ?_⟩
  · show (((List.range' 1 n).map vname) ++ _).Nodup
    rw [hmapvar, ← List.map_append]
    rw [show n + 1 = 1 + n from by omega, List.range'_append_1]
    exact (List.nodup_range' _ _).map (fun a b hab => vname_inj a b hab)
  · intro k eqn hk
    intro a ha
    have hk2 : k < (stagingGet sD i0).equations.length := by
      rcases Nat.lt_or_ge k (stagingGet sD i0).equations.length with h2 | h2
      · exact h2
      · rw [List.get?_eq_getElem?, List.getElem?_eq_none h2] at hk
        cases hk
    have hatom := (heqs k eqn hk).2 a ha
    show isAtomIn (((List.range' 1 n).map vname) ++ _) a
    exact atomLe_mem n _ _ rfl (fun k2 eqn2 hk2 => (heqs k2 eqn2 hk2).1) k (by omega) a hatom
  · show isAtomIn (((List.range' 1 n).map vname) ++ _) result
    have := atomLe_mem n ((stagingGet sD i0).equations.length) ((stagingGet sD i0).equations)
      rfl (fun k2 eqn2 hk2 => (heqs k2 eqn2 hk2).1)
      ((stagingGet sD i0).equations.length) (le_refl _) result (by rw [← hcnt]; exact hres)
    rwa [List.take_length] at this


/-- Witness for C8 at the staged `foo` program: the hypothesis holds by
computation and the SSA conclusions follow from the theorem. -/
theorem build_jaxpr_ssa_witness :
    (build_jaxpr (fun vs => runExpr fooExpr vs) 1 St.init).1
      = .ok ⟨["v_1"],
             [⟨"v_2", .add, [.var "v_1", .num 3]⟩,
              ⟨"v_3", .mul, [.var "v_1", .var "v_2"]⟩],
             .var "v_3"⟩
    ∧ ((["v_1"] : List String)
        ++ ([⟨"v_2", .add, [.var "v_1", .num 3]⟩,
             ⟨"v_3", .mul, [.var "v_1", .var "v_2"]⟩] : List Equation).map Equation.var).Nodup :=
  ⟨by decide, (build_jaxpr_ssa fooExpr 1 St.init
    ⟨["v_1"],
     [⟨"v_2", .add, [.var "v_1", .num 3]⟩,
      ⟨"v_3", .mul, [.var "v_1", .var "v_2"]⟩],
     .var "v_3"⟩ _ rfl).1⟩


/-! ### The flattener round trip (spec-modelled component) -/

theorem roundtrip_aux {α : Type} : ∀ (n : Nat),
    (∀ (t : PyTree α), sizeOf t ≤ n → ∀ rest,
        unflattenPartial (flatten t).2 ((flatten t).1 ++ rest) = .ok (t, rest))
    ∧ (∀ (ts : List (PyTree α)), sizeOf ts ≤ n → ∀ rest,
        unflattenList (flattenList ts).2 ((flattenList ts).1 ++ rest) = .ok (ts, rest)) := by
  intro n
  induction n with
  | zero =>
      constructor
      · intro t ht
        cases t <;> simp at ht
      · intro ts ht
        cases ts <;> simp at ht
  | succ n ih =>
      constructor
      · intro t ht rest
        cases t with
        | leaf a => simp [flatten, unflattenPartial]
        | node k ts =>
            have hts : sizeOf ts ≤ n := by
              simp at ht
              omega
            simp only [flatten, unflattenPartial, ih.2 ts hts rest]
      · intro ts ht rest
        cases ts with
        | nil => simp [flattenList, unflattenList]
        | cons t ts =>
            have h1 : sizeOf t ≤ n := by
              simp at ht
              omega
            have h2 : sizeOf ts ≤ n := by
              simp at ht
              omega
            simp only [flattenList, unflattenList, List.append_assoc,
              ih.1 t h1 ((flattenList ts).1 ++ rest), ih.2 ts h2 rest]

theorem mapLeaves_treedef_aux {α β : Type} (f : α → β) : ∀ (n : Nat),
    (∀ t : PyTree α, sizeOf t ≤ n → (flatten (PyTree.mapLeaves f t)).2 = (flatten t).2)
    ∧ (∀ ts : List (PyTree α), sizeOf ts ≤ n →
        (flattenList (PyTree.mapLeavesList f ts)).2 = (flattenList ts).2) := by
  intro n
  induction n with
  | zero =>
      constructor
      · intro t ht
        cases t <;> simp at ht
      · intro ts ht
        cases ts <;> simp at ht
  | succ n ih =>
      constructor
      · intro t ht
        cases t with
        | leaf a => rfl
        | node k ts =>
            have hts : sizeOf ts ≤ n := by
              simp at ht
              omega
            simp only [PyTree.mapLeaves, flatten, ih.2 ts hts]
      · intro ts ht
        cases ts with
        | nil => rfl
        | cons t ts =>
            have h1 : sizeOf t ≤ n := by
              simp at ht
              omega
            have h2 : sizeOf ts ≤ n := by
              simp at ht
              omega
            simp only [PyTree.mapLeavesList, flattenList, ih.1 t h1, ih.2 ts h2]

/-- C9: the flattener round-trips — unflattening the descriptor and leaf
sequence produced by `flatten` rebuilds the same nested structure — and the
descriptor depends only on the container shape: relabelling the leaves
leaves the descriptor unchanged. -/
theorem flatten_unflatten_roundtrip :
    (∀ (α : Type) (t : PyTree α), unflatten (flatten t).2 (flatten t).1 = .ok t)
    ∧ (∀ (α β : Type) (f : α → β) (t : PyTree α),
        (flatten (PyTree.mapLeaves f t)).2 = (flatten t).2) := by
  constructor
  · intro α t
    have h := (roundtrip_aux (sizeOf t)).1 t (le_refl _) []
    rw [List.append_nil] at h
    simp [unflatten, h]
  · intro α β f t
    exact (mapLeaves_treedef_aux f (sizeOf t)).1 t (le_refl _)

/-! ### The jaxpr printer succeeds only on variable return atoms -/

theorem asPyStrList_append (xs : List String) (v : Value) :
    asPyStrList (xs.map Value.var ++ [v]) =
      match v with
      | .var s => .ok (xs ++ [s])
      | _ => .error .typeError := by
  induction xs with
  | nil => cases v <;> rfl
  | cons x xs ih =>
      cases v <;> simp_all [asPyStrList, asPyStr, Bind.bind, Except.bind, Pure.pure, Except.pure]

theorem jaxpr_toStr_eq (j : Jaxpr) :
    Jaxpr.toStr j =
      match j.return_val with
      | .var s => .ok (String.intercalate "\n"
          ((String.intercalate ", " j.parameters ++ " ->") ::
            j.equations.map (fun eqn =>
              "  " ++ eqn.var ++ " = " ++ opStr eqn.op ++ "("
                ++ String.intercalate ", " (eqn.args.map atomStr) ++ ")") ++ [s]))
      | _ => .error .typeError := by
  show pyStrJoin "\n" _ = _
  rw [pyStrJoin]
  rw [show ((String.intercalate ", " j.parameters ++ " ->") ::
      j.equations.map (fun eqn =>
        "  " ++ eqn.var ++ " = " ++ opStr eqn.op ++ "("
          ++ String.intercalate ", " (eqn.args.map atomStr) ++ ")")).map Value.var ++ [j.return_val]
      = ((String.intercalate ", " j.parameters ++ " ->") ::
        j.equations.map (fun eqn =>
          "  " ++ eqn.var ++ " = " ++ opStr eqn.op ++ "("
            ++ String.intercalate ", " (eqn.args.map atomStr) ++ ")")).map Value.var
          ++ [j.return_val] from rfl]
  rw [asPyStrList_append]
  cases j.return_val <;> simp [Bind.bind, Except.bind, Pure.pure, Except.pure]

/-- C10: the jaxpr textual printer returns a string exactly when the
return atom is a variable name; when the return atom is a float literal it
raises a `TypeError` (the unconverted atom is appended to the line list
before joining). -/
theorem jaxpr_str_only_var_atom :
    (∀ j : Jaxpr, (∃ out, Jaxpr.toStr j = .ok out) ↔ (∃ v, j.return_val = .var v))
    ∧ (∀ (j : Jaxpr) (x : Int), j.return_val = .num x → Jaxpr.toStr j = .error .typeError) := by
  constructor
  · intro j
    rw [jaxpr_toStr_eq j]
    rcases hrv : j.return_val with q | v | ⟨i, p, t⟩
    · simp
    · simp
    · simp
  · intro j x hx
    rw [jaxpr_toStr_eq j, hx]

/-- Witness for C10 at a concrete jaxpr whose return atom is the float
literal `5.0`. -/
theorem jaxpr_str_only_var_atom_witness :
    (Jaxpr.mk [] [] (.num 5)).return_val = .num 5
    ∧ Jaxpr.toStr ⟨[], [], .num 5⟩ = .error .typeError :=
  ⟨rfl, jaxpr_str_only_var_atom.2 ⟨[], [], .num 5⟩ 5 rfl⟩


end Autodidax
